import Mathlib

/-
Verification development for graphycalculator.js, a Top-Down Operator
Precedence (Pratt) expression parser and evaluator over two variables x, y.

Shallow embedding notes.
The source is JavaScript.  JS numbers are IEEE-754 doubles; the model `JVal`
below represents a finite double by the exact rational it denotes and adds
the special values +Infinity, -Infinity and NaN.  The arithmetic on `JVal`
follows the ECMAScript semantics of +, -, *, /, Math.pow exactly on the
fragment where the result of a double operation is exact (which covers every
numeric computation performed in this development: small integers); rounding
of inexact results and the sign of zero are not modelled.

JS exceptions (the source throws strings) are modelled with Except String.
Error strings are kept verbatim except that four internal-error messages
quote a parenthesis character in the source; the model spells those as
rparen and lparen (message wording is not part of the contract, and no
claim depends on these four strings).
Token and tree objects in the source carry nud/led closures; the model uses
tagged variants and the parsing engine dispatches on the tag, which is the
same dynamic behavior (each arm below is annotated with the source lines it
embeds).  The source stores resolved JS function objects inside function
tokens and tree nodes; the model stores the function name and the evaluator
takes the interpretation of names as functions as an explicit parameter F,
so no axioms about real-valued transcendental functions are needed.
-/

namespace GraphyCalculator

/-- Model of a JS number: an exact rational for a finite double, plus the
three special values.  The sign of zero is not modelled; the literal 0 in
the source denotes +0 and `JVal.num 0` is read as +0. -/
inductive JVal where
  | num (q : ℚ)
  | posInf
  | negInf
  | nan
deriving DecidableEq, Repr

/-- JS unary minus on numbers (ECMAScript Number::unaryMinus). -/
def jneg : JVal → JVal
  | .num q => .num (-q)
  | .posInf => .negInf
  | .negInf => .posInf
  | .nan => .nan

/-- JS + on numbers (ECMAScript Number::add); exact on the rational fragment. -/
def jadd : JVal → JVal → JVal
  | .nan, _ => .nan
  | _, .nan => .nan
  | .num a, .num b => .num (a + b)
  | .posInf, .negInf => .nan
  | .negInf, .posInf => .nan
  | .posInf, _ => .posInf
  | _, .posInf => .posInf
  | .negInf, _ => .negInf
  | _, .negInf => .negInf

/-- JS - on numbers (ECMAScript Number::subtract). -/
def jsub : JVal → JVal → JVal
  | .nan, _ => .nan
  | _, .nan => .nan
  | .num a, .num b => .num (a - b)
  | .posInf, .posInf => .nan
  | .negInf, .negInf => .nan
  | .posInf, _ => .posInf
  | _, .posInf => .negInf
  | .negInf, _ => .negInf
  | _, .negInf => .posInf

/-- JS * on numbers (ECMAScript Number::multiply).  Products with an infinity
follow the sign rules; 0 * Infinity is NaN. -/
def jmul : JVal → JVal → JVal
  | .nan, _ => .nan
  | _, .nan => .nan
  | .num a, .num b => .num (a * b)
  | .posInf, .num b => if 0 < b then .posInf else if b < 0 then .negInf else .nan
  | .num a, .posInf => if 0 < a then .posInf else if a < 0 then .negInf else .nan
  | .negInf, .num b => if 0 < b then .negInf else if b < 0 then .posInf else .nan
  | .num a, .negInf => if 0 < a then .negInf else if a < 0 then .posInf else .nan
  | .posInf, .posInf => .posInf
  | .posInf, .negInf => .negInf
  | .negInf, .posInf => .negInf
  | .negInf, .negInf => .posInf

/-- JS / on numbers (ECMAScript Number::divide).  Division of a nonzero
number by zero yields a signed infinity (the zero here is +0, see `JVal`);
0/0 yields NaN; division by an infinity yields zero. -/
def jdiv : JVal → JVal → JVal
  | .nan, _ => .nan
  | _, .nan => .nan
  | .num a, .num b =>
      if b = 0 then
        if 0 < a then .posInf else if a < 0 then .negInf else .nan
      else .num (a / b)
  | .num _, .posInf => .num 0
  | .num _, .negInf => .num 0
  | .posInf, .num b => if b < 0 then .negInf else .posInf
  | .negInf, .num b => if b < 0 then .posInf else .negInf
  | .posInf, .posInf => .nan
  | .posInf, .negInf => .nan
  | .negInf, .posInf => .nan
  | .negInf, .negInf => .nan

/-- Integer power on the rationals, written with npow and inv so that it
reduces in the kernel; for a nonzero base it agrees with zpow. -/
def qpowInt (a : ℚ) (n : ℤ) : ℚ :=
  if 0 ≤ n then a ^ n.toNat else (a ^ (-n).toNat)⁻¹

/-- Math.pow (ECMAScript Number::exponentiate).  Follows the ES steps: an
exponent of zero yields 1 (even for a NaN base); a NaN operand otherwise
yields NaN; infinite operands follow the magnitude rules; zero-to-a-negative
power is +Infinity; a negative base with a non-integer exponent is NaN.
A nonnegative rational base with a non-integer exponent has an irrational
(hence unrepresentable) host result; that arm is mapped to NaN and is
outside the exact fragment this model is used on (no claim evaluates it). -/
def jpow (a b : JVal) : JVal :=
  match b with
  | .nan => .nan
  | .num be =>
      if be = 0 then .num 1
      else
        match a with
        | .nan => .nan
        | .posInf => if 0 < be then .posInf else .num 0
        | .negInf =>
            if 0 < be then
              (if be.den = 1 ∧ be.num % 2 = 1 then .negInf else .posInf)
            else .num 0
        | .num ab =>
            if ab = 0 then (if 0 < be then .num 0 else .posInf)
            else if be.den = 1 then .num (qpowInt ab be.num)
            else .nan
  | .posInf =>
      match a with
      | .nan => .nan
      | .num ab =>
          if ab = 1 ∨ ab = -1 then .nan
          else if -1 < ab ∧ ab < 1 then .num 0 else .posInf
      | _ => .posInf
  | .negInf =>
      match a with
      | .nan => .nan
      | .num ab =>
          if ab = 1 ∨ ab = -1 then .nan
          else if -1 < ab ∧ ab < 1 then .posInf else .num 0
      | _ => .num 0

/-- Names of the own properties of function_table (source lines 76-92).
Math.random appears only commented out in the source and is not a key. -/
def function_table_keys : List String :=
  ["abs", "acos", "asin", "atan", "ceil", "cos", "exp", "floor", "log",
   "round", "sin", "sinc", "sqrt", "tan"]

/-- Property names that every plain JS object literal inherits from
Object.prototype.  A JS property read table[name] traverses the prototype
chain, so it yields a value that is not undefined for these names even
though they are not own properties of the table.  Modelled from host
JavaScript semantics (the tables are object literals, source lines 76-99). -/
def object_prototype_keys : List String :=
  ["constructor", "hasOwnProperty", "isPrototypeOf", "propertyIsEnumerable",
   "toLocaleString", "toString", "valueOf", "__defineGetter__",
   "__defineSetter__", "__lookupGetter__", "__lookupSetter__", "__proto__"]

/-- The JS test table[name] !== undefined for an object literal with own
property names own: true for own keys and for everything inherited from
Object.prototype. -/
def js_has (own : List String) (name : String) : Bool :=
  own.contains name || object_prototype_keys.contains name

/-- Exact rational value of the double Math.E. -/
def math_E : ℚ := 6121026514868073 / 2251799813685248

/-- Exact rational value of the double Math.PI. -/
def math_PI : ℚ := 884279719003555 / 281474976710656

/-- constant_table (source lines 94-99), own properties only. -/
def constant_table : List (String × ℚ) :=
  [("E", math_E), ("e", math_E), ("pi", math_PI), ("PI", math_PI)]

/-- Lookup of an own property of constant_table.  The prototype-chain names
never reach this lookup in lex_scan because the function-table test (which
does see them, see `js_has`) is made first. -/
def constant_lookup (name : String) : Option ℚ :=
  (constant_table.find? (fun p => p.1 == name)).map (fun p => p.2)

/-- Token, the tagged-variant rendering of the token objects the source
builds in lex_scan.  op carries the fields of create_operator_token
(source lines 20-37): symbol, binding power, right_assoc flag (0 or 1),
also_unary flag (0 or 1).  func stores the name of the resolved function
(the source stores the JS function object itself).  endTok is the virtual
token the parser state returns past the end (source line 235). -/
inductive Token where
  | op (str : String) (bp : ℕ) (right_assoc : ℕ) (also_unary : ℕ)
  | value (v : JVal)
  | func (name : String)
  | var (name : String)
  | lparen
  | rparen
  | endTok
deriving DecidableEq, Repr

/-- Left binding power of a token.  value, func and var tokens carry no lbp
field in the source, so reading it yields undefined and every comparison
rbp < undefined is false; since every rbp the engine uses is a nonnegative
integer this is equivalent to lbp 0.  lparen has lbp 80 (line 147), rparen
lbp 0 (line 138), the end token lbp 0 (line 235). -/
def Token.lbp : Token → ℕ
  | .op _ bp _ _ => bp
  | .lparen => 80
  | _ => 0

/-- Character class [0-9] of the source regexes. -/
def digit_char (c : Char) : Bool := decide ('0' ≤ c) && decide (c ≤ '9')

/-- Character class [a-zA-Z_], the head class of reg_sym (line 112). -/
def sym_head (c : Char) : Bool :=
  (decide ('a' ≤ c) && decide (c ≤ 'z')) ||
  (decide ('A' ≤ c) && decide (c ≤ 'Z')) || decide (c = '_')

/-- Character class [a-zA-Z0-9_], the tail class of reg_sym. -/
def sym_char (c : Char) : Bool := sym_head c || digit_char c

/-- Anchored match of the body ([0-9]+[.][0-9]*)|([.][0-9]+) of reg_float,
returning the matched prefix.  The first alternative is tried first; greedy
digit runs with the required dot mean failure of the first alternative at a
digit head implies failure of the second, exactly as the backtracking regex
behaves. -/
def match_float_body (cs : List Char) : Option (List Char) :=
  let d1 := cs.takeWhile digit_char
  if d1 = [] then
    match cs with
    | '.' :: cs3 =>
        let d2 := cs3.takeWhile digit_char
        if d2 = [] then none else some ('.' :: d2)
    | _ => none
  else
    match cs.dropWhile digit_char with
    | '.' :: cs3 => some (d1 ++ '.' :: cs3.takeWhile digit_char)
    | _ => none

/-- Anchored match of reg_float (line 111), with its optional leading minus
sign.  If the sign is present but the body does not follow, the regex
backtracks to an empty sign and then fails on the minus character itself. -/
def match_float (cs : List Char) : Option (List Char) :=
  match cs with
  | '-' :: rest => (match_float_body rest).map (fun m => '-' :: m)
  | _ => match_float_body cs

/-- Anchored match of reg_int (line 110): an optional minus sign then a
greedy nonempty digit run. -/
def match_int (cs : List Char) : Option (List Char) :=
  match cs with
  | '-' :: rest =>
      let d := rest.takeWhile digit_char
      if d = [] then none else some ('-' :: d)
  | _ =>
      let d := cs.takeWhile digit_char
      if d = [] then none else some d

/-- Anchored match of reg_sym (line 112). -/
def match_sym (cs : List Char) : Option (List Char) :=
  match cs with
  | c :: rest =>
      if sym_head c then some (c :: rest.takeWhile sym_char) else none
  | [] => none

/-- Value of a nonempty decimal digit string. -/
def digitsToNat (ds : List Char) : ℕ :=
  ds.foldl (fun acc c => 10 * acc + (c.toNat - 48)) 0

/-- parseFloat of an unsigned string matched by the body of reg_float:
the exact decimal value.  The host rounds to the nearest double; the
literals this development evaluates are exact. -/
def parseFloatAbs (m : List Char) : ℚ :=
  let ip := m.takeWhile digit_char
  match m.dropWhile digit_char with
  | '.' :: fp => (digitsToNat ip : ℚ) + (digitsToNat fp : ℚ) / (10 : ℚ) ^ fp.length
  | _ => (digitsToNat ip : ℚ)

/-- parseFloat of a string matched by reg_float (line 170). -/
def parseFloatQ (m : List Char) : ℚ :=
  match m with
  | '-' :: rest => -(parseFloatAbs rest)
  | _ => parseFloatAbs m

/-- parseInt of a string matched by reg_int (line 175); decimal. -/
def parseIntQ (m : List Char) : ℚ :=
  match m with
  | '-' :: rest => -((digitsToNat rest : ℚ))
  | _ => (digitsToNat m : ℚ)

/-- Classification of a name matched by reg_sym (source lines 183-196):
x or y first, then the function table, then the constant table, otherwise
the unknown-symbol error naming the identifier. -/
def classify_sym (name : String) : Except String Token :=
  if name = "x" ∨ name = "y" then .ok (.var name)
  else if js_has function_table_keys name then .ok (.func name)
  else
    match constant_lookup name with
    | some c => .ok (.value (.num c))
    | none => .error ("unknown symbol " ++ name)

/-- Result of one iteration of the lex_scan while loop: push a token and
advance, skip whitespace, or throw. -/
inductive StepRes where
  | emit (t : Token) (n : ℕ)
  | skip (n : ℕ)
  | fail (msg : String)
deriving Repr

/-- One iteration of the lex_scan loop body (source lines 114-202) on the
remaining input str: the single-character switch first (operators,
parentheses, whitespace), then reg_float, then reg_int, then reg_sym, and
otherwise the generic failure naming the unconsumed remainder. -/
def lex_step (str : List Char) : StepRes :=
  match str with
  | [] => .fail "empty input to lex_step"
  | c :: _ =>
    if c = '+' ∨ c = '-' then .emit (.op (String.mk [c]) 50 0 1) 1
    else if c = '*' ∨ c = '/' then .emit (.op (String.mk [c]) 60 0 0) 1
    else if c = '^' then .emit (.op "^" 75 1 0) 1
    else if c = ')' then .emit .rparen 1
    else if c = '(' then .emit .lparen 1
    else if c = ' ' ∨ c = '\t' ∨ c = '\r' ∨ c = '\n' then .skip 1
    else
      match match_float str with
      | some m => .emit (.value (.num (parseFloatQ m))) m.length
      | none =>
        match match_int str with
        | some m => .emit (.value (.num (parseIntQ m))) m.length
        | none =>
          match match_sym str with
          | some m =>
              match classify_sym (String.mk m) with
              | .ok t => .emit t m.length
              | .error e => .fail e
          | none => .fail ("Failed in processing input: " ++ String.mk str)

/-- The lex_scan while loop as fuel recursion; one unit of fuel per
iteration.  Every iteration consumes at least one character, so fuel equal
to the input length never runs out (`lex_loop_fuel`). -/
def lex_loop : ℕ → List Char → Except String (List Token)
  | _, [] => .ok []
  | 0, _ :: _ => .error "lexer fuel exhausted"
  | fuel + 1, c :: rest =>
      match lex_step (c :: rest) with
      | .emit t n => (lex_loop fuel ((c :: rest).drop n)).map (fun ts => t :: ts)
      | .skip n => lex_loop fuel ((c :: rest).drop n)
      | .fail msg => .error msg

/-- lex_scan (source lines 103-206). -/
def lex_scan (input : List Char) : Except String (List Token) :=
  lex_loop input.length input

/-- Expression tree node.  The source reuses the token objects as tree
nodes, retagging operator tokens as op_u<str> or op_b<str> and storing
children in left and right; a child obtained from an expression call that
returned undefined is the JS value undefined, rendered here as the
constructor undef so that the tree-or-undefined values the engine passes
around form one type.  func stores the name of the resolved function. -/
inductive Tree where
  | undef
  | value (v : JVal)
  | var (name : String)
  | func (name : String) (left : Tree)
  | op_u (str : String) (left : Tree)
  | op_b (str : String) (left : Tree) (right : Tree)
deriving DecidableEq, Repr

/-- True when the tree contains an undefined node (a missing operand). -/
def Tree.hasUndef : Tree → Bool
  | .undef => true
  | .value _ => false
  | .var _ => false
  | .func _ l => l.hasUndef
  | .op_u _ l => l.hasUndef
  | .op_b _ l r => l.hasUndef || r.hasUndef

/-- Parser state (source lines 229-239): the token array and a cursor. -/
structure PState where
  tokens : List Token
  i : ℕ
deriving Repr

/-- state.at_end (line 232). -/
def PState.at_end (s : PState) : Bool := s.tokens.length ≤ s.i

/-- state.token (lines 233-238): the current token, or the virtual end
token once the cursor is past the end. -/
def PState.token (s : PState) : Token := s.tokens.getD s.i .endTok

/-- state.advance (line 239). -/
def PState.advance (s : PState) : PState := { s with i := s.i + 1 }

/-- The binding power a binary operator led passes to the recursive
expression call for its right operand: bp - right_assoc (source line 25),
where right_assoc is 1 for a right-associative operator and 0 otherwise. -/
def opLedRbp (bp right_assoc : ℕ) : ℕ := bp - right_assoc

/-- The led rule the spec describes, for comparison with `opLedRbp`: own
binding power minus 1 if the operator is left-associative (right_assoc = 0),
own binding power unchanged if right-associative. -/
def specLedRbp (bp right_assoc : ℕ) : ℕ := if right_assoc = 0 then bp - 1 else bp

/-- The binding power used by every prefix (nud) rule of an operator or
function token (source lines 32 and 59). -/
def unary_bp : ℕ := 70

/-- The core Pratt engine, state.expression (source lines 240-252),
together with the nud and led methods of each token kind, which it invokes
by dispatch on the token tag.  Arguments: fuel, then rbp, then the phase,
then the state.  Phase none is the entry of expression: test at_end
(returning undefined), consume a token, run its nud.  Phase some left is
the while loop with accumulated left operand: while rbp < lbp of the
current token, consume it and run its led, else return left.  Fuel only
bounds the recursion depth (the source recursion is bounded by the token
count); it decreases by one at every call, and create_parse_tree supplies
enough for the whole token array, so on every input this development
evaluates the fuel is never exhausted and the kernel checks the full
computation.

The inlined nud arms (entry phase) embed: operator nud, lines 29-35 (throw
unless also_unary, else parse the operand at binding power 70 and retag as
op_u); value nud, line 46 (return self); function nud, lines 57-61 (parse
the argument at binding power 70); variable nud, line 72 (return self);
lparen nud, lines 149-156 (parse at binding power 0, require rparen,
consume it, return the inner expression); rparen nud, line 140 (throw).
The inlined led arms (loop phase) embed: operator led, lines 23-28 (parse
the right operand at bp - right_assoc, retag as op_b); and the throwing
led of value (line 44), function (line 55), variable (line 70), rparen
(line 139) and lparen (line 148) tokens.  The end token of the source has
no nud or led member, so invoking one would raise a TypeError; those arms
are unreachable (entry tests at_end first, and the end token has lbp 0). -/
def expr_core : ℕ → ℕ → Option Tree → PState → Except String (Tree × PState)
  | 0, _, _, _ => .error "parser fuel exhausted"
  | fuel + 1, rbp, none, s =>
      if s.at_end then .ok (.undef, s)
      else
        let t := s.token
        let s1 := s.advance
        let nudRes : Except String (Tree × PState) :=
          match t with
          | .op str _bp _ra also_unary =>
              if also_unary ≠ 1 then .error "error in operator nud"
              else
                match expr_core fuel unary_bp none s1 with
                | .error e => .error e
                | .ok (e, s2) => .ok (.op_u str e, s2)
          | .value v => .ok (.value v, s1)
          | .func name =>
              match expr_core fuel unary_bp none s1 with
              | .error e => .error e
              | .ok (e, s2) => .ok (.func name e, s2)
          | .var name => .ok (.var name, s1)
          | .lparen =>
              match expr_core fuel 0 none s1 with
              | .error e => .error e
              | .ok (e, s2) =>
                  if s2.token = .rparen then .ok (e, s2.advance)
                  else .error "Unmatched left parenthesis."
          | .rparen => .error "Internal error: nud called on rparen"
          | .endTok => .error "Internal error: nud called on the end token"
        match nudRes with
        | .error e => .error e
        | .ok (left, s2) => expr_core fuel rbp (some left) s2
  | fuel + 1, rbp, some left, s =>
      if rbp < s.token.lbp then
        let t := s.token
        let s1 := s.advance
        let ledRes : Except String (Tree × PState) :=
          match t with
          | .op str bp right_assoc _au =>
              match expr_core fuel (opLedRbp bp right_assoc) none s1 with
              | .error e => .error e
              | .ok (r, s2) => .ok (.op_b str left r, s2)
          | .value _ => .error "led called on a value token."
          | .func _ => .error "Internal error: led called on a function."
          | .var _ => .error "Internal error: led called on a variable."
          | .rparen => .error "Internal error: led called on rparen"
          | .lparen => .error "Interal error, led called on lparen"
          | .endTok => .error "Internal error: led called on the end token"
        match ledRes with
        | .error e => .error e
        | .ok (left2, s2) => expr_core fuel rbp (some left2) s2
      else .ok (left, s)

/-- state.expression(rbp, state) (source lines 240-252). -/
def expression (fuel rbp : ℕ) (s : PState) : Except String (Tree × PState) :=
  expr_core fuel rbp none s

/-- Fuel sufficient for any parse of the given token array: the engine
consumes a token before every nested call, so recursion depth and loop
steps are bounded by the token count; any larger fuel gives the same
result on the inputs this development evaluates (the kernel checks each
concrete computation outright). -/
def parser_fuel (tokens : List Token) : ℕ := 4 * tokens.length + 4

/-- create_parse_tree (source lines 228-256): run expression(0) from cursor
0 and return its tree, ignoring the final cursor position (tokens left over
after the expression are not examined). -/
def create_parse_tree (tokens : List Token) : Except String Tree :=
  match expression (parser_fuel tokens) 0 ⟨tokens, 0⟩ with
  | .error e => .error e
  | .ok (t, _) => .ok t

/-- parse (source lines 295-297). -/
def parse (input : String) : Except String Tree :=
  match lex_scan input.data with
  | .error e => .error e
  | .ok tokens => create_parse_tree tokens

/-- evaluate_tree (source lines 258-287).  F interprets the name stored in
a function node as the JS function the source stores there (the table at
lines 76-92 restricted to Math functions; the claims constrain F only where
they need to).  An undefined tree throws (line 259-260); the switch on the
node tag follows, with the unhandled-node default (line 284-285). -/
def evaluate_tree (F : String → JVal → JVal) : Tree → JVal → JVal → Except String JVal
  | .undef, _, _ => .error "Error parsing input, probably invalid."
  | .value v, _, _ => .ok v
  | .var name, x, y => .ok (if name = "x" then x else y)
  | .func name l, x, y => (evaluate_tree F l x y).map (F name)
  | .op_u str l, x, y =>
      if str = "+" then evaluate_tree F l x y
      else if str = "-" then (evaluate_tree F l x y).map jneg
      else .error ("Internal error, unhandled node: op_u" ++ str)
  | .op_b str l r, x, y =>
      if str = "+" then
        (evaluate_tree F l x y).bind fun a => (evaluate_tree F r x y).map fun b => jadd a b
      else if str = "-" then
        (evaluate_tree F l x y).bind fun a => (evaluate_tree F r x y).map fun b => jsub a b
      else if str = "*" then
        (evaluate_tree F l x y).bind fun a => (evaluate_tree F r x y).map fun b => jmul a b
      else if str = "/" then
        (evaluate_tree F l x y).bind fun a => (evaluate_tree F r x y).map fun b => jdiv a b
      else if str = "^" then
        (evaluate_tree F l x y).bind fun a => (evaluate_tree F r x y).map fun b => jpow a b
      else .error ("Internal error, unhandled node: op_b" ++ str)

/-- create_evaluator (source lines 289-293). -/
def create_evaluator (F : String → JVal → JVal) (tree : Tree) : JVal → JVal → Except String JVal :=
  fun x y => evaluate_tree F tree x y

/-- The composition the source header documents: parse the input, then
evaluate the resulting tree at bindings (x, y) through create_evaluator. -/
def run (input : String) (F : String → JVal → JVal) (x y : JVal) : Except String JVal :=
  match parse input with
  | .error e => .error e
  | .ok t => create_evaluator F t x y

/-- An all-zero interpretation of function names, used to instantiate
universally quantified statements at a concrete point. -/
def Fzero : String → JVal → JVal := fun _ _ => JVal.num 0

/-- Decidable equality of Except results, for evaluating statements about
parse and evaluation outcomes on concrete inputs. -/
instance {e a : Type} [DecidableEq e] [DecidableEq a] : DecidableEq (Except e a) := fun u v =>
  match u, v with
  | .ok x, .ok y =>
      if h : x = y then .isTrue (by rw [h]) else .isFalse (fun hh => h (Except.ok.inj hh))
  | .error x, .error y =>
      if h : x = y then .isTrue (by rw [h]) else .isFalse (fun hh => h (Except.error.inj hh))
  | .ok _, .error _ => .isFalse (fun hh => Except.noConfusion hh)
  | .error _, .ok _ => .isFalse (fun hh => Except.noConfusion hh)

/-- Big-step evaluation relation: the relational rendering of the recursive
switch of evaluate_tree (source lines 258-287) on the trees it handles
without error.  Used to state determinism of evaluation. -/
inductive EvalR (F : String → JVal → JVal) (x y : JVal) : Tree → JVal → Prop where
  | value (v : JVal) : EvalR F x y (.value v) v
  | var (name : String) : EvalR F x y (.var name) (if name = "x" then x else y)
  | func (name : String) (l : Tree) (v : JVal) :
      EvalR F x y l v → EvalR F x y (.func name l) (F name v)
  | op_u_plus (l : Tree) (v : JVal) : EvalR F x y l v → EvalR F x y (.op_u "+" l) v
  | op_u_minus (l : Tree) (v : JVal) : EvalR F x y l v → EvalR F x y (.op_u "-" l) (jneg v)
  | op_b_plus (l r : Tree) (a b : JVal) :
      EvalR F x y l a → EvalR F x y r b → EvalR F x y (.op_b "+" l r) (jadd a b)
  | op_b_minus (l r : Tree) (a b : JVal) :
      EvalR F x y l a → EvalR F x y r b → EvalR F x y (.op_b "-" l r) (jsub a b)
  | op_b_mul (l r : Tree) (a b : JVal) :
      EvalR F x y l a → EvalR F x y r b → EvalR F x y (.op_b "*" l r) (jmul a b)
  | op_b_div (l r : Tree) (a b : JVal) :
      EvalR F x y l a → EvalR F x y r b → EvalR F x y (.op_b "/" l r) (jdiv a b)
  | op_b_pow (l r : Tree) (a b : JVal) :
      EvalR F x y l a → EvalR F x y r b → EvalR F x y (.op_b "^" l r) (jpow a b)

theorem bind_map_error {g : JVal → JVal → JVal} {el er : Except String JVal}
    (h : (∃ e, el = .error e) ∨ (∃ e, er = .error e)) :
    ∃ e, (el.bind fun a => er.map fun b => g a b) = .error e := by
  cases el with
  | error e => exact ⟨e, rfl⟩
  | ok a =>
      rcases h with ⟨e, he⟩ | ⟨e, he⟩
      · exact absurd he (by simp)
      · exact ⟨e, by simp [he, Except.bind, Except.map]⟩

theorem evaluate_hasUndef_error (F : String → JVal → JVal) (x y : JVal) :
    ∀ t : Tree, t.hasUndef = true → ∃ e, evaluate_tree F t x y = .error e := by
  intro t
  induction t with
  | undef => intro _; exact ⟨_, rfl⟩
  | value v => intro h; simp [Tree.hasUndef] at h
  | var n => intro h; simp [Tree.hasUndef] at h
  | func n l ih =>
      intro h
      obtain ⟨e, he⟩ := ih (by simpa [Tree.hasUndef] using h)
      exact ⟨e, by simp [evaluate_tree, he, Except.map]⟩
  | op_u str l ih =>
      intro h
      obtain ⟨e, he⟩ := ih (by simpa [Tree.hasUndef] using h)
      by_cases h1 : str = "+"
      · exact ⟨e, by simp [evaluate_tree, h1, he]⟩
      by_cases h2 : str = "-"
      · exact ⟨e, by simp [evaluate_tree, h1, h2, he, Except.map]⟩
      exact ⟨"Internal error, unhandled node: op_u" ++ str, by simp [evaluate_tree, h1, h2]⟩
  | op_b str l r ihl ihr =>
      intro h
      have hor : (∃ e, evaluate_tree F l x y = .error e) ∨
          (∃ e, evaluate_tree F r x y = .error e) := by
        rcases (by simpa [Tree.hasUndef, Bool.or_eq_true] using h :
            l.hasUndef = true ∨ r.hasUndef = true) with hl | hr
        · exact Or.inl (ihl hl)
        · exact Or.inr (ihr hr)
      by_cases h1 : str = "+"
      · obtain ⟨e, he⟩ := bind_map_error (g := jadd) hor
        exact ⟨e, by simpa [evaluate_tree, h1] using he⟩
      by_cases h2 : str = "-"
      · obtain ⟨e, he⟩ := bind_map_error (g := jsub) hor
        exact ⟨e, by simpa [evaluate_tree, h1, h2] using he⟩
      by_cases h3 : str = "*"
      · obtain ⟨e, he⟩ := bind_map_error (g := jmul) hor
        exact ⟨e, by simpa [evaluate_tree, h1, h2, h3] using he⟩
      by_cases h4 : str = "/"
      · obtain ⟨e, he⟩ := bind_map_error (g := jdiv) hor
        exact ⟨e, by simpa [evaluate_tree, h1, h2, h3, h4] using he⟩
      by_cases h5 : str = "^"
      · obtain ⟨e, he⟩ := bind_map_error (g := jpow) hor
        exact ⟨e, by simpa [evaluate_tree, h1, h2, h3, h4, h5] using he⟩
      exact ⟨"Internal error, unhandled node: op_b" ++ str,
        by simp [evaluate_tree, h1, h2, h3, h4, h5]⟩

theorem EvalR_evaluate {F : String → JVal → JVal} {x y : JVal} :
    ∀ {t : Tree} {v : JVal}, EvalR F x y t v → evaluate_tree F t x y = .ok v := by
  intro t v h
  induction h with
  | value v => rfl
  | var n => rfl
  | func n l v _ ih => simp [evaluate_tree, ih, Except.map]
  | op_u_plus l v _ ih => simpa [evaluate_tree] using ih
  | op_u_minus l v _ ih => simp [evaluate_tree, ih, Except.map]
  | op_b_plus l r a b _ _ ih1 ih2 => simp [evaluate_tree, ih1, ih2, Except.bind, Except.map]
  | op_b_minus l r a b _ _ ih1 ih2 => simp [evaluate_tree, ih1, ih2, Except.bind, Except.map]
  | op_b_mul l r a b _ _ ih1 ih2 => simp [evaluate_tree, ih1, ih2, Except.bind, Except.map]
  | op_b_div l r a b _ _ ih1 ih2 => simp [evaluate_tree, ih1, ih2, Except.bind, Except.map]
  | op_b_pow l r a b _ _ ih1 ih2 => simp [evaluate_tree, ih1, ih2, Except.bind, Except.map]

theorem evaluate_EvalR {F : String → JVal → JVal} {x y : JVal} :
    ∀ (t : Tree) {v : JVal}, evaluate_tree F t x y = .ok v → EvalR F x y t v := by
  intro t
  induction t with
  | undef => intro v h; exact absurd h (by simp [evaluate_tree])
  | value w =>
      intro v h
      obtain rfl : w = v := by simpa [evaluate_tree] using h
      exact .value w
  | var n =>
      intro v h
      obtain rfl : (if n = "x" then x else y) = v := by simpa [evaluate_tree] using h
      exact .var n
  | func n l ih =>
      intro v h
      cases hel : evaluate_tree F l x y with
      | error e => simp [evaluate_tree, hel, Except.map] at h
      | ok w =>
          obtain rfl : F n w = v := by simpa [evaluate_tree, hel, Except.map] using h
          exact .func n l w (ih hel)
  | op_u str l ih =>
      intro v h
      by_cases h1 : str = "+"
      · subst h1
        exact .op_u_plus l v (ih (by simpa [evaluate_tree] using h))
      by_cases h2 : str = "-"
      · subst h2
        cases hel : evaluate_tree F l x y with
        | error e => simp [evaluate_tree, hel, Except.map] at h
        | ok w =>
            obtain rfl : jneg w = v := by simpa [evaluate_tree, hel, Except.map] using h
            exact .op_u_minus l w (ih hel)
      exact absurd h (by simp [evaluate_tree, h1, h2])
  | op_b str l r ihl ihr =>
      intro v h
      by_cases h1 : str = "+"
      · subst h1
        cases hel : evaluate_tree F l x y with
        | error e => simp [evaluate_tree, hel, Except.bind] at h
        | ok a =>
            cases her : evaluate_tree F r x y with
            | error e => simp [evaluate_tree, hel, her, Except.bind, Except.map] at h
            | ok b =>
                obtain rfl : jadd a b = v := by
                  simpa [evaluate_tree, hel, her, Except.bind, Except.map] using h
                exact .op_b_plus l r a b (ihl hel) (ihr her)
      by_cases h2 : str = "-"
      · subst h2
        cases hel : evaluate_tree F l x y with
        | error e => simp [evaluate_tree, hel, Except.bind] at h
        | ok a =>
            cases her : evaluate_tree F r x y with
            | error e => simp [evaluate_tree, hel, her, Except.bind, Except.map] at h
            | ok b =>
                obtain rfl : jsub a b = v := by
                  simpa [evaluate_tree, hel, her, Except.bind, Except.map] using h
                exact .op_b_minus l r a b (ihl hel) (ihr her)
      by_cases h3 : str = "*"
      · subst h3
        cases hel : evaluate_tree F l x y with
        | error e => simp [evaluate_tree, hel, Except.bind] at h
        | ok a =>
            cases her : evaluate_tree F r x y with
            | error e => simp [evaluate_tree, hel, her, Except.bind, Except.map] at h
            | ok b =>
                obtain rfl : jmul a b = v := by
                  simpa [evaluate_tree, hel, her, Except.bind, Except.map] using h
                exact .op_b_mul l r a b (ihl hel) (ihr her)
      by_cases h4 : str = "/"
      · subst h4
        cases hel : evaluate_tree F l x y with
        | error e => simp [evaluate_tree, hel, Except.bind] at h
        | ok a =>
            cases her : evaluate_tree F r x y with
            | error e => simp [evaluate_tree, hel, her, Except.bind, Except.map] at h
            | ok b =>
                obtain rfl : jdiv a b = v := by
                  simpa [evaluate_tree, hel, her, Except.bind, Except.map] using h
                exact .op_b_div l r a b (ihl hel) (ihr her)
      by_cases h5 : str = "^"
      · subst h5
        cases hel : evaluate_tree F l x y with
        | error e => simp [evaluate_tree, hel, Except.bind] at h
        | ok a =>
            cases her : evaluate_tree F r x y with
            | error e => simp [evaluate_tree, hel, her, Except.bind, Except.map] at h
            | ok b =>
                obtain rfl : jpow a b = v := by
                  simpa [evaluate_tree, hel, her, Except.bind, Except.map] using h
                exact .op_b_pow l r a b (ihl hel) (ihr her)
      exact absurd h (by simp [evaluate_tree, h1, h2, h3, h4, h5])

theorem match_float_body_pos {cs m : List Char} (h : match_float_body cs = some m) :
    0 < m.length := by
  simp only [match_float_body] at h
  by_cases h1 : cs.takeWhile digit_char = []
  · rw [if_pos h1] at h
    split at h
    · split at h
      · exact absurd h (by simp)
      · obtain rfl := Option.some.inj h
        simp
    · exact absurd h (by simp)
  · rw [if_neg h1] at h
    split at h
    · obtain rfl := Option.some.inj h
      simp only [List.length_append, List.length_cons]
      omega
    · exact absurd h (by simp)

theorem match_float_pos {cs m : List Char} (h : match_float cs = some m) : 0 < m.length := by
  rw [match_float.eq_def] at h
  split at h
  · rw [Option.map_eq_some'] at h
    obtain ⟨m2, _, rfl⟩ := h
    simp
  · exact match_float_body_pos h

theorem match_int_pos {cs m : List Char} (h : match_int cs = some m) : 0 < m.length := by
  rw [match_int.eq_def] at h
  revert h
  split
  · next r =>
      intro h
      by_cases h2 : r.takeWhile digit_char = []
      · rw [if_pos h2] at h
        exact absurd h (by simp)
      · rw [if_neg h2] at h
        obtain rfl := Option.some.inj h
        simp
  · intro h
    by_cases h2 : cs.takeWhile digit_char = []
    · rw [if_pos h2] at h
      exact absurd h (by simp)
    · rw [if_neg h2] at h
      obtain rfl := Option.some.inj h
      exact List.length_pos.mpr h2

theorem match_sym_pos {cs m : List Char} (h : match_sym cs = some m) : 0 < m.length := by
  rw [match_sym.eq_def] at h
  split at h
  · split at h
    · obtain rfl := Option.some.inj h
      simp
    · exact absurd h (by simp)
  · exact absurd h (by simp)

theorem lex_step_consumes {c : Char} {rest : List Char} :
    (∀ t n, lex_step (c :: rest) = .emit t n → 0 < n) ∧
    (∀ n, lex_step (c :: rest) = .skip n → 0 < n) := by
  constructor
  · intro t n h
    simp only [lex_step] at h
    split_ifs at h
    all_goals try exact (StepRes.emit.inj h).2 ▸ Nat.one_pos
    split at h
    · next m hf => exact (StepRes.emit.inj h).2 ▸ match_float_pos hf
    · split at h
      · next m hi => exact (StepRes.emit.inj h).2 ▸ match_int_pos hi
      · split at h
        · next m hs =>
            split at h
            · exact (StepRes.emit.inj h).2 ▸ match_sym_pos hs
            · exact StepRes.noConfusion h
        · exact StepRes.noConfusion h
  · intro n h
    simp only [lex_step] at h
    split_ifs at h
    all_goals try exact (StepRes.skip.inj h) ▸ Nat.one_pos
    split at h
    · exact StepRes.noConfusion h
    · split at h
      · exact StepRes.noConfusion h
      · split at h
        · split at h
          · exact StepRes.noConfusion h
          · exact StepRes.noConfusion h
        · exact StepRes.noConfusion h

theorem classify_sym_error {name e : String} (h : classify_sym name = .error e) :
    e = "unknown symbol " ++ name := by
  simp only [classify_sym] at h
  split at h
  · exact absurd h (by simp)
  · split at h
    · exact absurd h (by simp)
    · split at h
      · exact absurd h (by simp)
      · exact (Except.error.inj h).symm

theorem unknown_symbol_ne_fuel (name : String) :
    "unknown symbol " ++ name ≠ "lexer fuel exhausted" := by
  obtain ⟨d⟩ := name
  intro h
  have hd : ("unknown symbol ".data ++ d) = "lexer fuel exhausted".data :=
    congrArg String.data h
  rw [show "unknown symbol ".data = 'u' :: "nknown symbol ".data from rfl] at hd
  exact absurd (List.cons.inj hd).1 (by decide)

theorem failed_input_ne_fuel (s : String) :
    "Failed in processing input: " ++ s ≠ "lexer fuel exhausted" := by
  obtain ⟨d⟩ := s
  intro h
  have hd : ("Failed in processing input: ".data ++ d) = "lexer fuel exhausted".data :=
    congrArg String.data h
  rw [show "Failed in processing input: ".data =
      'F' :: "ailed in processing input: ".data from rfl] at hd
  exact absurd (List.cons.inj hd).1 (by decide)

theorem lex_step_no_fuel_msg {c : Char} {rest : List Char}
    (h : lex_step (c :: rest) = .fail "lexer fuel exhausted") : False := by
  simp only [lex_step] at h
  split_ifs at h
  split at h
  · exact StepRes.noConfusion h
  · split at h
    · exact StepRes.noConfusion h
    · split at h
      · split at h
        · exact StepRes.noConfusion h
        · next e hcl =>
            exact unknown_symbol_ne_fuel _
              ((classify_sym_error hcl).symm.trans (StepRes.fail.inj h))
      · exact failed_input_ne_fuel _ (StepRes.fail.inj h)

theorem lex_loop_fuel_eq :
    ∀ (f1 f2 : ℕ) (cs : List Char), cs.length ≤ f1 → cs.length ≤ f2 →
      lex_loop f1 cs = lex_loop f2 cs := by
  intro f1
  induction f1 with
  | zero =>
      intro f2 cs h1 h2
      obtain rfl : cs = [] := List.eq_nil_of_length_eq_zero (Nat.le_zero.mp h1)
      cases f2 <;> rfl
  | succ f1 ih =>
      intro f2 cs h1 h2
      match cs with
      | [] => cases f2 <;> rfl
      | c :: rest =>
          match f2 with
          | 0 => exact absurd h2 (by simp)
          | f2 + 1 =>
              rw [lex_loop, lex_loop]
              cases hstep : lex_step (c :: rest) with
              | emit t n =>
                  have hn : 0 < n := (lex_step_consumes.1 t n hstep)
                  have hd1 : ((c :: rest).drop n).length ≤ f1 := by
                    simp only [List.length_drop, List.length_cons]
                    simp only [List.length_cons] at h1
                    omega
                  have hd2 : ((c :: rest).drop n).length ≤ f2 := by
                    simp only [List.length_drop, List.length_cons]
                    simp only [List.length_cons] at h2
                    omega
                  show Except.map (fun ts => t :: ts) (lex_loop f1 ((c :: rest).drop n)) =
                    Except.map (fun ts => t :: ts) (lex_loop f2 ((c :: rest).drop n))
                  rw [ih f2 _ hd1 hd2]
              | skip n =>
                  have hn : 0 < n := (lex_step_consumes.2 n hstep)
                  have hd1 : ((c :: rest).drop n).length ≤ f1 := by
                    simp only [List.length_drop, List.length_cons]
                    simp only [List.length_cons] at h1
                    omega
                  have hd2 : ((c :: rest).drop n).length ≤ f2 := by
                    simp only [List.length_drop, List.length_cons]
                    simp only [List.length_cons] at h2
                    omega
                  show lex_loop f1 ((c :: rest).drop n) = lex_loop f2 ((c :: rest).drop n)
                  exact ih f2 _ hd1 hd2
              | fail msg => rfl

/-- Any fuel at least the input length computes lex_scan: the fuel in
lex_loop is a recursion bound, not part of the semantics. -/
theorem lex_loop_eq_lex_scan (input : List Char) (fuel : ℕ) (h : input.length ≤ fuel) :
    lex_loop fuel input = lex_scan input :=
  lex_loop_fuel_eq fuel input.length input h le_rfl

/-- The lexer fuel is never exhausted when it starts at the input length:
the loop body consumes at least one character per iteration. -/
theorem lex_loop_no_fuel_error :
    ∀ (fuel : ℕ) (cs : List Char), cs.length ≤ fuel →
      lex_loop fuel cs ≠ .error "lexer fuel exhausted" := by
  intro fuel
  induction fuel with
  | zero =>
      intro cs h1
      obtain rfl : cs = [] := List.eq_nil_of_length_eq_zero (Nat.le_zero.mp h1)
      simp [lex_loop]
  | succ fuel ih =>
      intro cs h1
      match cs with
      | [] => simp [lex_loop]
      | c :: rest =>
          rw [lex_loop]
          cases hstep : lex_step (c :: rest) with
          | emit t n =>
              have hn : 0 < n := (lex_step_consumes.1 t n hstep)
              have hd : ((c :: rest).drop n).length ≤ fuel := by
                simp only [List.length_drop, List.length_cons]
                simp only [List.length_cons] at h1
                omega
              show Except.map (fun ts => t :: ts) (lex_loop fuel ((c :: rest).drop n)) ≠
                Except.error "lexer fuel exhausted"
              intro hcontra
              cases hrec : lex_loop fuel ((c :: rest).drop n) with
              | ok ts => rw [hrec] at hcontra; exact absurd hcontra (by simp [Except.map])
              | error e =>
                  rw [hrec] at hcontra
                  have he : e = "lexer fuel exhausted" := by
                    simpa [Except.map] using hcontra
                  exact ih _ hd (by rw [hrec, he])
          | skip n =>
              have hn : 0 < n := (lex_step_consumes.2 n hstep)
              have hd : ((c :: rest).drop n).length ≤ fuel := by
                simp only [List.length_drop, List.length_cons]
                simp only [List.length_cons] at h1
                omega
              show lex_loop fuel ((c :: rest).drop n) ≠ Except.error "lexer fuel exhausted"
              exact ih _ hd
          | fail msg =>
              show Except.error msg ≠ Except.error "lexer fuel exhausted"
              intro hcontra
              exact lex_step_no_fuel_msg
                (hstep.trans (congrArg StepRes.fail (Except.error.inj hcontra)))

theorem PState.token_of_past_end {s : PState} (h : s.tokens.length ≤ s.i) :
    s.token = .endTok :=
  List.getD_eq_default _ _ h

theorem lbp_lt_not_at_end {s : PState} {rbp : ℕ} (h : rbp < s.token.lbp) :
    s.i < s.tokens.length := by
  by_contra hge
  rw [Nat.not_lt] at hge
  rw [PState.token_of_past_end hge] at h
  exact absurd h (by simp [Token.lbp])

theorem rparen_not_at_end {s : PState} (h : s.token = .rparen) :
    s.i < s.tokens.length := by
  by_contra hge
  rw [Nat.not_lt] at hge
  rw [PState.token_of_past_end hge] at h
  exact Token.noConfusion h

/-- The parser fuel is never exhausted when it exceeds the number of
unconsumed tokens: the engine consumes a token before every nested call,
so each recursive call works on a strictly shorter unconsumed suffix.
Moreover the cursor only moves forward, stays within bounds, and the token
array is never modified.  In particular create_parse_tree, which supplies
fuel 4 * length + 4, computes exactly what the unfueled source recursion
computes on every token array. -/
theorem expr_core_progress :
    ∀ (fuel : ℕ) (rbp : ℕ) (ph : Option Tree) (s : PState),
      s.i ≤ s.tokens.length →
      s.tokens.length - s.i + 1 ≤ fuel →
      (expr_core fuel rbp ph s ≠ .error "parser fuel exhausted") ∧
      (∀ r s2, expr_core fuel rbp ph s = .ok (r, s2) →
        s.i ≤ s2.i ∧ s2.i ≤ s2.tokens.length ∧ s2.tokens = s.tokens) := by
  intro fuel
  induction fuel with
  | zero =>
      intro rbp ph s hi hf
      exact absurd hf (by omega)
  | succ fuel ih =>
      intro rbp ph s hi hf
      match ph with
      | none =>
          simp only [expr_core]
          by_cases hend : s.at_end = true
          · rw [if_pos hend]
            refine ⟨by simp, ?_⟩
            intro r s2 h
            obtain ⟨rfl, rfl⟩ : Tree.undef = r ∧ s = s2 := by
              simpa using (Prod.mk.inj (Except.ok.inj h))
            exact ⟨le_rfl, hi, rfl⟩
          · rw [if_neg hend]
            have hlt : s.i < s.tokens.length := by
              simpa [PState.at_end, Nat.not_le] using hend
            have hadv_i : s.advance.i ≤ s.advance.tokens.length := by
              simpa [PState.advance] using hlt
            have hadv_f : s.advance.tokens.length - s.advance.i + 1 ≤ fuel := by
              simp only [PState.advance]
              omega
            obtain ⟨I1, I2⟩ := ih unary_bp none s.advance hadv_i hadv_f
            obtain ⟨L1, L2⟩ := ih 0 none s.advance hadv_i hadv_f
            split
            · next e heq =>
                refine ⟨?_, fun r s2 h => Except.noConfusion h⟩
                intro hc
                obtain rfl : e = "parser fuel exhausted" := Except.error.inj hc
                revert heq
                split
                · next str bpv rav au heqtok =>
                    by_cases hau : au ≠ 1
                    · rw [if_pos hau]
                      intro heq
                      exact absurd (Except.error.inj heq) (by decide)
                    · rw [if_neg hau]
                      cases hin : expr_core fuel unary_bp none s.advance with
                      | error e2 =>
                          intro heq
                          exact I1 (by rw [hin, Except.error.inj heq])
                      | ok p =>
                          obtain ⟨e2, s2p⟩ := p
                          intro heq
                          exact Except.noConfusion heq
                · intro heq
                  exact Except.noConfusion heq
                · cases hin : expr_core fuel unary_bp none s.advance with
                  | error e2 =>
                      intro heq
                      exact I1 (by rw [hin, Except.error.inj heq])
                  | ok p =>
                      obtain ⟨e2, s2p⟩ := p
                      intro heq
                      exact Except.noConfusion heq
                · intro heq
                  exact Except.noConfusion heq
                · cases hin : expr_core fuel 0 none s.advance with
                  | error e2 =>
                      intro heq
                      exact L1 (by rw [hin, Except.error.inj heq])
                  | ok p =>
                      obtain ⟨e2, s2p⟩ := p
                      intro heq
                      replace heq : (if s2p.token = Token.rparen then
                          Except.ok (e2, s2p.advance)
                          else Except.error "Unmatched left parenthesis.") =
                          Except.error "parser fuel exhausted" := heq
                      by_cases hrp : s2p.token = .rparen
                      · rw [if_pos hrp] at heq
                        exact Except.noConfusion heq
                      · rw [if_neg hrp] at heq
                        exact absurd (Except.error.inj heq) (by decide)
                · intro heq
                  exact absurd (Except.error.inj heq) (by decide)
                · intro heq
                  exact absurd (Except.error.inj heq) (by decide)
            · next left s2a heq =>
                have hinv : s.i + 1 ≤ s2a.i ∧ s2a.i ≤ s2a.tokens.length ∧
                    s2a.tokens = s.tokens := by
                  revert heq
                  split
                  · next str bpv rav au heqtok =>
                      by_cases hau : au ≠ 1
                      · rw [if_pos hau]
                        intro heq
                        exact Except.noConfusion heq
                      · rw [if_neg hau]
                        cases hin : expr_core fuel unary_bp none s.advance with
                        | error e2 =>
                            intro heq
                            exact Except.noConfusion heq
                        | ok p =>
                            obtain ⟨e2, s2p⟩ := p
                            intro heq
                            obtain ⟨-, rfl⟩ : Tree.op_u str e2 = left ∧ s2p = s2a := by
                              simpa using (Prod.mk.inj (Except.ok.inj heq))
                            obtain ⟨m1, m2, m3⟩ := I2 e2 s2p hin
                            simp only [PState.advance] at m1
                            exact ⟨m1, m2, m3⟩
                  · intro heq
                    obtain ⟨-, rfl⟩ : Tree.value _ = left ∧ s.advance = s2a := by
                      simpa using (Prod.mk.inj (Except.ok.inj heq))
                    exact ⟨le_rfl, hadv_i, rfl⟩
                  · cases hin : expr_core fuel unary_bp none s.advance with
                    | error e2 =>
                        intro heq
                        exact Except.noConfusion heq
                    | ok p =>
                        obtain ⟨e2, s2p⟩ := p
                        intro heq
                        obtain ⟨-, rfl⟩ : Tree.func _ e2 = left ∧ s2p = s2a := by
                          simpa using (Prod.mk.inj (Except.ok.inj heq))
                        obtain ⟨m1, m2, m3⟩ := I2 e2 s2p hin
                        simp only [PState.advance] at m1
                        exact ⟨m1, m2, m3⟩
                  · intro heq
                    obtain ⟨-, rfl⟩ : Tree.var _ = left ∧ s.advance = s2a := by
                      simpa using (Prod.mk.inj (Except.ok.inj heq))
                    exact ⟨le_rfl, hadv_i, rfl⟩
                  · cases hin : expr_core fuel 0 none s.advance with
                    | error e2 =>
                        intro heq
                        exact Except.noConfusion heq
                    | ok p =>
                        obtain ⟨e2, s2p⟩ := p
                        intro heq
                        replace heq : (if s2p.token = Token.rparen then
                            Except.ok (e2, s2p.advance)
                            else Except.error "Unmatched left parenthesis.") =
                            Except.ok (left, s2a) := heq
                        by_cases hrp : s2p.token = .rparen
                        · rw [if_pos hrp] at heq
                          obtain ⟨-, rfl⟩ : e2 = left ∧ s2p.advance = s2a := by
                            simpa using (Prod.mk.inj (Except.ok.inj heq))
                          obtain ⟨m1, m2, m3⟩ := L2 e2 s2p hin
                          have hrp_lt : s2p.i < s2p.tokens.length := rparen_not_at_end hrp
                          simp only [PState.advance] at m1 ⊢
                          exact ⟨by omega, by omega, m3⟩
                        · rw [if_neg hrp] at heq
                          exact Except.noConfusion heq
                  · intro heq
                    exact Except.noConfusion heq
                  · intro heq
                    exact Except.noConfusion heq
                obtain ⟨hv1, hv2, hv3⟩ := hinv
                obtain ⟨J1, J2⟩ := ih rbp (some left) s2a hv2 (by rw [hv3]; omega)
                refine ⟨J1, ?_⟩
                intro r s2 h
                obtain ⟨k1, k2, k3⟩ := J2 r s2 h
                exact ⟨by omega, k2, k3.trans hv3⟩
      | some left =>
          simp only [expr_core]
          by_cases hlb : rbp < s.token.lbp
          · rw [if_pos hlb]
            have hlt : s.i < s.tokens.length := lbp_lt_not_at_end hlb
            have hadv_i : s.advance.i ≤ s.advance.tokens.length := by
              simpa [PState.advance] using hlt
            have hadv_f : s.advance.tokens.length - s.advance.i + 1 ≤ fuel := by
              simp only [PState.advance]
              omega
            split
            · next e heq =>
                refine ⟨?_, fun r s2 h => Except.noConfusion h⟩
                intro hc
                obtain rfl : e = "parser fuel exhausted" := Except.error.inj hc
                revert heq
                split
                · next str bpv rav au heqtok =>
                    cases hin : expr_core fuel (opLedRbp bpv rav) none s.advance with
                    | error e2 =>
                        intro heq
                        exact (ih (opLedRbp bpv rav) none s.advance hadv_i hadv_f).1
                          (by rw [hin, Except.error.inj heq])
                    | ok p =>
                        obtain ⟨e2, s2p⟩ := p
                        intro heq
                        exact Except.noConfusion heq
                · intro heq
                  exact absurd (Except.error.inj heq) (by decide)
                · intro heq
                  exact absurd (Except.error.inj heq) (by decide)
                · intro heq
                  exact absurd (Except.error.inj heq) (by decide)
                · intro heq
                  exact absurd (Except.error.inj heq) (by decide)
                · intro heq
                  exact absurd (Except.error.inj heq) (by decide)
                · intro heq
                  exact absurd (Except.error.inj heq) (by decide)
            · next left2 s2a heq =>
                have hinv : s.i + 1 ≤ s2a.i ∧ s2a.i ≤ s2a.tokens.length ∧
                    s2a.tokens = s.tokens := by
                  revert heq
                  split
                  · next str bpv rav au heqtok =>
                      cases hin : expr_core fuel (opLedRbp bpv rav) none s.advance with
                      | error e2 =>
                          intro heq
                          exact Except.noConfusion heq
                      | ok p =>
                          obtain ⟨e2, s2p⟩ := p
                          intro heq
                          obtain ⟨-, rfl⟩ : Tree.op_b str left e2 = left2 ∧ s2p = s2a := by
                            simpa using (Prod.mk.inj (Except.ok.inj heq))
                          obtain ⟨m1, m2, m3⟩ :=
                            (ih (opLedRbp bpv rav) none s.advance hadv_i hadv_f).2 e2 s2p hin
                          simp only [PState.advance] at m1
                          exact ⟨m1, m2, m3⟩
                  · intro heq
                    exact Except.noConfusion heq
                  · intro heq
                    exact Except.noConfusion heq
                  · intro heq
                    exact Except.noConfusion heq
                  · intro heq
                    exact Except.noConfusion heq
                  · intro heq
                    exact Except.noConfusion heq
                  · intro heq
                    exact Except.noConfusion heq
                obtain ⟨hv1, hv2, hv3⟩ := hinv
                obtain ⟨J1, J2⟩ := ih rbp (some left2) s2a hv2 (by rw [hv3]; omega)
                refine ⟨J1, ?_⟩
                intro r s2 h
                obtain ⟨k1, k2, k3⟩ := J2 r s2 h
                exact ⟨by omega, k2, k3.trans hv3⟩
          · rw [if_neg hlb]
            refine ⟨by simp, ?_⟩
            intro r s2 h
            obtain ⟨rfl, rfl⟩ : left = r ∧ s = s2 := by
              simpa using (Prod.mk.inj (Except.ok.inj h))
            exact ⟨le_rfl, hi, rfl⟩

/-- The parser fuel is irrelevant once sufficient: any two fuels that
exceed the number of unconsumed tokens make expr_core compute the same
result, so the fuel in the model is a recursion bound, not part of the
semantics. -/
theorem expr_core_fuel_eq :
    ∀ (f1 f2 : ℕ) (rbp : ℕ) (ph : Option Tree) (s : PState),
      s.i ≤ s.tokens.length →
      s.tokens.length - s.i + 1 ≤ f1 →
      s.tokens.length - s.i + 1 ≤ f2 →
      expr_core f1 rbp ph s = expr_core f2 rbp ph s := by
  intro f1
  induction f1 with
  | zero =>
      intro f2 rbp ph s hi h1 h2
      exact absurd h1 (by omega)
  | succ f1 ih =>
      intro f2 rbp ph s hi h1 h2
      match f2 with
      | 0 => exact absurd h2 (by omega)
      | g + 1 =>
        have hstep : ∀ s3 : PState, s.i < s3.i → s.i < s.tokens.length →
            s3.tokens = s.tokens →
            s3.tokens.length - s3.i + 1 ≤ f1 ∧ s3.tokens.length - s3.i + 1 ≤ g := by
          intro s3 ha hb hc
          rw [hc]
          exact ⟨by omega, by omega⟩
        match ph with
        | none =>
            simp only [expr_core]
            by_cases hend : s.at_end = true
            · rw [if_pos hend, if_pos hend]
            · rw [if_neg hend, if_neg hend]
              have hlt : s.i < s.tokens.length := by
                simpa [PState.at_end, Nat.not_le] using hend
              have hadv_i : s.advance.i ≤ s.advance.tokens.length := by
                simpa [PState.advance] using hlt
              have hadv_f1 : s.advance.tokens.length - s.advance.i + 1 ≤ f1 := by
                simp only [PState.advance]
                omega
              have hadv_g : s.advance.tokens.length - s.advance.i + 1 ≤ g := by
                simp only [PState.advance]
                omega
              cases htok : s.token with
              | op str bpv rav au =>
                  show (match (if au ≠ 1 then Except.error "error in operator nud"
                        else match expr_core f1 unary_bp none s.advance with
                          | Except.error e => Except.error e
                          | Except.ok (e, s2) => Except.ok (Tree.op_u str e, s2)) with
                      | Except.error e => Except.error e
                      | Except.ok (left, s2) => expr_core f1 rbp (some left) s2) =
                    (match (if au ≠ 1 then Except.error "error in operator nud"
                        else match expr_core g unary_bp none s.advance with
                          | Except.error e => Except.error e
                          | Except.ok (e, s2) => Except.ok (Tree.op_u str e, s2)) with
                      | Except.error e => Except.error e
                      | Except.ok (left, s2) => expr_core g rbp (some left) s2)
                  by_cases hau : au ≠ 1
                  · rw [if_pos hau, if_pos hau]
                  · rw [if_neg hau, if_neg hau]
                    rw [ih g unary_bp none s.advance hadv_i hadv_f1 hadv_g]
                    cases hin : expr_core g unary_bp none s.advance with
                    | error e => rfl
                    | ok p =>
                        obtain ⟨e2, s2p⟩ := p
                        obtain ⟨m1, m2, m3⟩ :=
                          (expr_core_progress g unary_bp none s.advance hadv_i hadv_g).2
                            e2 s2p hin
                        obtain ⟨n1, n2⟩ := hstep s2p
                          (by simp only [PState.advance] at m1; omega) hlt m3
                        exact ih g rbp (some (.op_u str e2)) s2p m2 n1 n2
              | value v =>
                  exact ih g rbp (some (.value v)) s.advance hadv_i hadv_f1 hadv_g
              | func name =>
                  show (match (match expr_core f1 unary_bp none s.advance with
                          | Except.error e => Except.error e
                          | Except.ok (e, s2) => Except.ok (Tree.func name e, s2)) with
                      | Except.error e => Except.error e
                      | Except.ok (left, s2) => expr_core f1 rbp (some left) s2) =
                    (match (match expr_core g unary_bp none s.advance with
                          | Except.error e => Except.error e
                          | Except.ok (e, s2) => Except.ok (Tree.func name e, s2)) with
                      | Except.error e => Except.error e
                      | Except.ok (left, s2) => expr_core g rbp (some left) s2)
                  rw [ih g unary_bp none s.advance hadv_i hadv_f1 hadv_g]
                  cases hin : expr_core g unary_bp none s.advance with
                  | error e => rfl
                  | ok p =>
                      obtain ⟨e2, s2p⟩ := p
                      obtain ⟨m1, m2, m3⟩ :=
                        (expr_core_progress g unary_bp none s.advance hadv_i hadv_g).2
                          e2 s2p hin
                      obtain ⟨n1, n2⟩ := hstep s2p
                        (by simp only [PState.advance] at m1; omega) hlt m3
                      exact ih g rbp (some (.func name e2)) s2p m2 n1 n2
              | var name =>
                  exact ih g rbp (some (.var name)) s.advance hadv_i hadv_f1 hadv_g
              | lparen =>
                  show (match (match expr_core f1 0 none s.advance with
                          | Except.error e => Except.error e
                          | Except.ok (e, s2) =>
                              if s2.token = Token.rparen then Except.ok (e, s2.advance)
                              else Except.error "Unmatched left parenthesis.") with
                      | Except.error e => Except.error e
                      | Except.ok (left, s2) => expr_core f1 rbp (some left) s2) =
                    (match (match expr_core g 0 none s.advance with
                          | Except.error e => Except.error e
                          | Except.ok (e, s2) =>
                              if s2.token = Token.rparen then Except.ok (e, s2.advance)
                              else Except.error "Unmatched left parenthesis.") with
                      | Except.error e => Except.error e
                      | Except.ok (left, s2) => expr_core g rbp (some left) s2)
                  rw [ih g 0 none s.advance hadv_i hadv_f1 hadv_g]
                  cases hin : expr_core g 0 none s.advance with
                  | error e => rfl
                  | ok p =>
                      obtain ⟨e2, s2p⟩ := p
                      obtain ⟨m1, m2, m3⟩ :=
                        (expr_core_progress g 0 none s.advance hadv_i hadv_g).2 e2 s2p hin
                      show (match (if s2p.token = Token.rparen then Except.ok (e2, s2p.advance)
                            else Except.error "Unmatched left parenthesis.") with
                          | Except.error e => Except.error e
                          | Except.ok (left, s2) => expr_core f1 rbp (some left) s2) =
                        (match (if s2p.token = Token.rparen then Except.ok (e2, s2p.advance)
                            else Except.error "Unmatched left parenthesis.") with
                          | Except.error e => Except.error e
                          | Except.ok (left, s2) => expr_core g rbp (some left) s2)
                      by_cases hrp : s2p.token = .rparen
                      · rw [if_pos hrp]
                        have hrp_lt : s2p.i < s2p.tokens.length := rparen_not_at_end hrp
                        obtain ⟨n1, n2⟩ := hstep s2p.advance
                          (by simp only [PState.advance] at m1 ⊢; omega) hlt
                          (by simpa [PState.advance] using m3)
                        exact ih g rbp (some e2) s2p.advance
                          (by simpa [PState.advance] using hrp_lt) n1 n2
                      · rw [if_neg hrp]
              | rparen => rfl
              | endTok => rfl
        | some left =>
            simp only [expr_core]
            by_cases hlb : rbp < s.token.lbp
            · rw [if_pos hlb, if_pos hlb]
              have hlt : s.i < s.tokens.length := lbp_lt_not_at_end hlb
              have hadv_i : s.advance.i ≤ s.advance.tokens.length := by
                simpa [PState.advance] using hlt
              have hadv_f1 : s.advance.tokens.length - s.advance.i + 1 ≤ f1 := by
                simp only [PState.advance]
                omega
              have hadv_g : s.advance.tokens.length - s.advance.i + 1 ≤ g := by
                simp only [PState.advance]
                omega
              cases htok : s.token with
              | op str bpv rav au =>
                  show (match (match expr_core f1 (opLedRbp bpv rav) none s.advance with
                          | Except.error e => Except.error e
                          | Except.ok (r, s2) => Except.ok (Tree.op_b str left r, s2)) with
                      | Except.error e => Except.error e
                      | Except.ok (left2, s2) => expr_core f1 rbp (some left2) s2) =
                    (match (match expr_core g (opLedRbp bpv rav) none s.advance with
                          | Except.error e => Except.error e
                          | Except.ok (r, s2) => Except.ok (Tree.op_b str left r, s2)) with
                      | Except.error e => Except.error e
                      | Except.ok (left2, s2) => expr_core g rbp (some left2) s2)
                  rw [ih g (opLedRbp bpv rav) none s.advance hadv_i hadv_f1 hadv_g]
                  cases hin : expr_core g (opLedRbp bpv rav) none s.advance with
                  | error e => rfl
                  | ok p =>
                      obtain ⟨e2, s2p⟩ := p
                      obtain ⟨m1, m2, m3⟩ :=
                        (expr_core_progress g (opLedRbp bpv rav) none s.advance
                          hadv_i hadv_g).2 e2 s2p hin
                      obtain ⟨n1, n2⟩ := hstep s2p
                        (by simp only [PState.advance] at m1; omega) hlt m3
                      exact ih g rbp (some (.op_b str left e2)) s2p m2 n1 n2
              | value v => rfl
              | func name => rfl
              | var name => rfl
              | rparen => rfl
              | lparen => rfl
              | endTok => rfl
            · rw [if_neg hlb, if_neg hlb]

/-- The lexer fuel is never exhausted at the fuel lex_scan supplies. -/
theorem lex_scan_no_fuel_error (input : List Char) :
    lex_scan input ≠ .error "lexer fuel exhausted" :=
  lex_loop_no_fuel_error input.length input le_rfl

/-- The parser fuel is never exhausted at the fuel create_parse_tree
supplies. -/
theorem create_parse_tree_no_fuel_error (tokens : List Token) :
    create_parse_tree tokens ≠ .error "parser fuel exhausted" := by
  have hb : (⟨tokens, 0⟩ : PState).tokens.length - (⟨tokens, 0⟩ : PState).i + 1 ≤
      parser_fuel tokens := by
    show tokens.length - 0 + 1 ≤ 4 * tokens.length + 4
    omega
  have h := (expr_core_progress (parser_fuel tokens) 0 none ⟨tokens, 0⟩
    (Nat.zero_le _) hb).1
  unfold create_parse_tree expression
  split
  · next e heq =>
      intro hc
      exact h (by rw [heq, Except.error.inj hc])
  · simp

/-- Any fuel at least tokens.length + 1 makes expression(0) from cursor 0
compute what create_parse_tree computes: the chosen parser_fuel is
arbitrary among the sufficient fuels. -/
theorem create_parse_tree_fuel_eq (tokens : List Token) (fuel : ℕ)
    (h : tokens.length + 1 ≤ fuel) :
    expression fuel 0 ⟨tokens, 0⟩ = expression (parser_fuel tokens) 0 ⟨tokens, 0⟩ := by
  apply expr_core_fuel_eq fuel (parser_fuel tokens) 0 none ⟨tokens, 0⟩ (Nat.zero_le _)
  · show tokens.length - 0 + 1 ≤ fuel
    omega
  · show tokens.length - 0 + 1 ≤ 4 * tokens.length + 4
    omega

/-- C1 (corrected): parse does not itself report a missing operand.  On the
input "2+" it returns a binary-plus node whose right child is undefined, and
on the empty input it returns undefined, in both cases without an error;
the malformed result is instead detected by the evaluator, which fails on
every tree that contains an undefined node. -/
theorem C1_missing_operand_deferred :
    parse "2+" = .ok (.op_b "+" (.value (.num 2)) .undef) ∧
    parse "" = .ok .undef ∧
    ∀ (F : String → JVal → JVal) (t : Tree) (x y : JVal),
      t.hasUndef = true → ∃ e, evaluate_tree F t x y = .error e :=
  ⟨rfl, rfl, fun F t x y h => evaluate_hasUndef_error F x y t h⟩

/-- Witness for C1: the tree parse returns for "2+" has an undefined child
and its evaluation fails. -/
theorem C1_witness :
    ∃ e, evaluate_tree Fzero (.op_b "+" (.value (.num 2)) .undef) (.num 0) (.num 0) =
      .error e :=
  C1_missing_operand_deferred.2.2 Fzero (.op_b "+" (.value (.num 2)) .undef)
    (.num 0) (.num 0) (by decide)

/-- Counterexample to C1 as stated: on the input "2+" (which ends right
after an infix operator) parse does not fail; it returns a tree in which
the operator node has an undefined child. -/
theorem C1_counterexample :
    parse "2+" = .ok (.op_b "+" (.value (.num 2)) .undef) ∧
    (Tree.op_b "+" (.value (.num 2)) .undef).hasUndef = true :=
  ⟨rfl, by decide⟩

/-- C2 (corrected): parse of "(2+3" fails with the unmatched-parenthesis
error, but parse of "2+3)" does not fail: the engine stops in front of the
unconsumed right parenthesis (binding power 0) and create_parse_tree never
checks that the cursor reached the end, so the tree for 2+3 is returned and
the trailing right parenthesis is silently ignored. -/
theorem C2_unmatched_paren :
    parse "(2+3" = .error "Unmatched left parenthesis." ∧
    parse "2+3)" = .ok (.op_b "+" (.value (.num 2)) (.value (.num 3))) :=
  ⟨rfl, rfl⟩

/-- Counterexample to C2 as stated: parse of "2+3)" succeeds (the claim
says it fails), returning the tree for 2+3. -/
theorem C2_counterexample :
    parse "2+3)" = .ok (.op_b "+" (.value (.num 2)) (.value (.num 3))) := rfl

/-- C3 (corrected): the led of a binary operator parses its right operand
at binding power bp - right_assoc, that is, own binding power minus 1 when
the operator is RIGHT-associative and own binding power unchanged when it
is left-associative (the opposite of the claim); with the strictly-greater
loop test this is what makes equal-precedence left-associative chains stop
(group leftward) and right-associative chains continue (nest rightward),
as the two parse trees below show. -/
theorem C3_led_binding_power :
    (∀ bp ra : ℕ, ra = 0 ∨ ra = 1 →
        opLedRbp bp ra = if ra = 1 then bp - 1 else bp) ∧
    parse "2-3-4" =
      .ok (.op_b "-" (.op_b "-" (.value (.num 2)) (.value (.num 3))) (.value (.num 4))) ∧
    parse "2^3^2" =
      .ok (.op_b "^" (.value (.num 2)) (.op_b "^" (.value (.num 3)) (.value (.num 2)))) := by
  refine ⟨?_, rfl, rfl⟩
  rintro bp ra (rfl | rfl) <;> simp [opLedRbp]

/-- Witness for C3: the left-associative minus operator (binding power 50,
right_assoc flag 0) hands binding power 50, not 49, to the recursive call. -/
theorem C3_witness : opLedRbp 50 0 = if (0 : ℕ) = 1 then 50 - 1 else 50 :=
  C3_led_binding_power.1 50 0 (Or.inl rfl)

/-- Counterexample to C3 as stated: for the left-associative operators of
binding power 50 (such as the minus token the lexer emits), the code passes
50 to the recursive expression call where the claim prescribes 49. -/
theorem C3_counterexample :
    lex_scan "-".data = .ok [.op "-" 50 0 1] ∧
    opLedRbp 50 0 = 50 ∧ specLedRbp 50 0 = 49 :=
  ⟨rfl, rfl, rfl⟩

/-- C4 (corrected): subtraction groups left-to-right and exponentiation
right-to-left, exactly as the claim says, but (2-3)-4 is -5, not the -3 the
claim states: the tree parsed from "2-3-4" evaluates to -5 at any bindings,
and the tree parsed from "2^3^2" evaluates to 512. -/
theorem C4_associativity (F : String → JVal → JVal) (x y : JVal) :
    run "2-3-4" F x y = .ok (.num (-5)) ∧ run "2^3^2" F x y = .ok (.num 512) := by
  constructor
  · have h : run "2-3-4" F x y =
        .ok (.num (((2 : ℕ) : ℚ) - ((3 : ℕ) : ℚ) - ((4 : ℕ) : ℚ))) := rfl
    rw [h]; norm_num
  · rfl

/-- Counterexample to C4 as stated: the tree parsed from "2-3-4" evaluates
to -5, which is not the -3 the claim gives for (2-3)-4. -/
theorem C4_counterexample :
    run "2-3-4" Fzero (.num 0) (.num 0) = .ok (.num (-5)) ∧
    JVal.num (-5) ≠ JVal.num (-3) := by
  constructor
  · have h : run "2-3-4" Fzero (.num 0) (.num 0) =
        .ok (.num (((2 : ℕ) : ℚ) - ((3 : ℕ) : ℚ) - ((4 : ℕ) : ℚ))) := rfl
    rw [h]; norm_num
  · intro h
    have : ((-5 : ℚ)) = -3 := JVal.num.inj h
    norm_num at this

/-- C5 (confirmed): every prefix rule captures its operand at binding power
70 (between * at 60 and ^ at 75): the tree parsed from "-2^2" evaluates to
-4 (the tighter ^ wins over unary minus), and for any interpretation that
sends sin to a function with sin 0 = 0, the tree parsed from "sin 0+5"
evaluates to 5 (the looser + is not absorbed into the argument). -/
theorem C5_prefix_binding (F : String → JVal → JVal) (x y : JVal)
    (hsin : F "sin" (.num 0) = .num 0) :
    run "-2^2" F x y = .ok (.num (-4)) ∧
    run "sin 0+5" F x y = .ok (.num 5) ∧ unary_bp = 70 := by
  refine ⟨rfl, ?_, rfl⟩
  have h : run "sin 0+5" F x y = .ok (jadd (F "sin" (.num 0)) (.num 5)) := rfl
  rw [h, hsin]
  have h2 : jadd (.num 0) (.num 5) = .num ((0 : ℚ) + 5) := rfl
  rw [h2]; norm_num

/-- Witness for C5 at the all-zero interpretation of function names. -/
theorem C5_witness :
    run "-2^2" Fzero (.num 0) (.num 0) = .ok (.num (-4)) ∧
    run "sin 0+5" Fzero (.num 0) (.num 0) = .ok (.num 5) ∧ unary_bp = 70 :=
  C5_prefix_binding Fzero (.num 0) (.num 0) rfl

/-- C6 (confirmed): multiplication binds tighter than addition and
parentheses override precedence: the tree parsed from "2+3*4" evaluates to
14 and the tree parsed from "(2+3)*4" evaluates to 20, at any bindings. -/
theorem C6_precedence (F : String → JVal → JVal) (x y : JVal) :
    run "2+3*4" F x y = .ok (.num 14) ∧ run "(2+3)*4" F x y = .ok (.num 20) := by
  constructor
  · have h : run "2+3*4" F x y =
        .ok (.num (((2 : ℕ) : ℚ) + ((3 : ℕ) : ℚ) * ((4 : ℕ) : ℚ))) := rfl
    rw [h]; norm_num
  · have h : run "(2+3)*4" F x y =
        .ok (.num ((((2 : ℕ) : ℚ) + ((3 : ℕ) : ℚ)) * ((4 : ℕ) : ℚ))) := rfl
    rw [h]; norm_num

/-- C7 (code bug): property lookup on a JS object literal traverses the
prototype chain, so for an identifier such as toString - which is not x or
y, not an own key of function_table and not a key of constant_table - the
test function_table[name] !== undefined still succeeds and the tokenizer
classifies it as a function instead of failing with the unknown-symbol
error the claim (and the fixed symbol table of the spec) prescribes.  A
name found in none of the tables nor on Object.prototype does fail with
the error naming the identifier. -/
theorem C7_prototype_lookup :
    lex_scan "toString".data = .ok [.func "toString"] ∧
    function_table_keys.contains "toString" = false ∧
    constant_lookup "toString" = none ∧
    ("toString" ≠ "x" ∧ "toString" ≠ "y") ∧
    lex_scan "foo2".data = .error "unknown symbol foo2" :=
  ⟨rfl, by decide, rfl, ⟨by decide, by decide⟩, rfl⟩

/-- C8 (confirmed): host floating-point conventions at the edge cases: the
tree parsed from "1/0" evaluates to positive infinity and the tree parsed
from "0^0" evaluates to 1, at any bindings. -/
theorem C8_float_edge_cases (F : String → JVal → JVal) (x y : JVal) :
    run "1/0" F x y = .ok .posInf ∧ run "0^0" F x y = .ok (.num 1) :=
  ⟨rfl, rfl⟩

/-- C9 (confirmed): evaluation of a tree at bindings (x, y) under a fixed
interpretation of the stored functions is deterministic: the big-step
evaluation relation assigns at most one result to each tree, and it holds
exactly when the evaluator returned by create_evaluator produces that
result, so repeated invocations with identical (x, y) return identical
results.  (The evaluator is a pure function of (tree, x, y) in this
embedding, which is faithful because evaluate_tree performs no assignment
and the function table contains no stateful entry.) -/
theorem C9_evaluation_deterministic (F : String → JVal → JVal) (x y : JVal) (t : Tree) :
    (∀ v1 v2 : JVal, EvalR F x y t v1 → EvalR F x y t v2 → v1 = v2) ∧
    (∀ v : JVal, EvalR F x y t v ↔ create_evaluator F t x y = .ok v) := by
  constructor
  · intro v1 v2 h1 h2
    have e1 := EvalR_evaluate h1
    have e2 := EvalR_evaluate h2
    rw [e1] at e2
    exact Except.ok.inj e2
  · intro v
    exact ⟨fun h => EvalR_evaluate h, fun h => evaluate_EvalR t h⟩

theorem parseFloatAbs_nonneg (m : List Char) : 0 ≤ parseFloatAbs m := by
  simp only [parseFloatAbs]
  split
  · positivity
  · positivity

theorem digit_char_ne_minus {c : Char} (h : digit_char c = true) : c ≠ '-' := by
  intro hc
  subst hc
  exact absurd h (by decide)

theorem parseFloatQ_of_head_ne {c : Char} (rest : List Char) (hc : c ≠ '-') :
    parseFloatQ (c :: rest) = parseFloatAbs (c :: rest) := by
  rw [parseFloatQ.eq_def]
  split
  · next r heq =>
      exact absurd (List.cons.inj heq).1 hc
  · rfl

theorem match_float_body_nonneg {cs m : List Char} (h : match_float_body cs = some m) :
    0 ≤ parseFloatQ m := by
  simp only [match_float_body] at h
  by_cases h1 : cs.takeWhile digit_char = []
  · rw [if_pos h1] at h
    split at h
    · split at h
      · exact absurd h (by simp)
      · obtain rfl := Option.some.inj h
        rw [parseFloatQ_of_head_ne _ (by decide)]
        exact parseFloatAbs_nonneg _
    · exact absurd h (by simp)
  · rw [if_neg h1] at h
    obtain ⟨c, d1, hd1⟩ := List.exists_cons_of_ne_nil h1
    have hdig : digit_char c = true :=
      List.mem_takeWhile_imp (by rw [hd1]; exact List.mem_cons_self c d1)
    split at h
    · obtain rfl := Option.some.inj h
      rw [hd1, List.cons_append, parseFloatQ_of_head_ne _ (digit_char_ne_minus hdig)]
      exact parseFloatAbs_nonneg _
    · exact absurd h (by simp)

theorem match_float_nonneg {c : Char} {rest m : List Char} (hc : c ≠ '-')
    (h : match_float (c :: rest) = some m) : 0 ≤ parseFloatQ m := by
  rw [match_float.eq_def] at h
  have hbody : match_float_body (c :: rest) = some m := by
    revert h
    split
    · next r heq => exact absurd (List.cons.inj heq).1 hc
    · exact id
  exact match_float_body_nonneg hbody

theorem match_int_nonneg {c : Char} {rest m : List Char} (hc : c ≠ '-')
    (h : match_int (c :: rest) = some m) : 0 ≤ parseIntQ m := by
  rw [match_int.eq_def] at h
  have hbody : m = (c :: rest).takeWhile digit_char := by
    revert h
    split
    · next r heq => exact absurd (List.cons.inj heq).1 hc
    · intro h
      by_cases h2 : (c :: rest).takeWhile digit_char = []
      · rw [if_pos h2] at h; exact absurd h (by simp)
      · rw [if_neg h2] at h; exact (Option.some.inj h).symm
  subst hbody
  by_cases h2 : (c :: rest).takeWhile digit_char = []
  · rw [h2]; simp [parseIntQ]
  · obtain ⟨d, ds, hds⟩ := List.exists_cons_of_ne_nil h2
    have hdig : digit_char d = true :=
      List.mem_takeWhile_imp (by rw [hds]; exact List.mem_cons_self d ds)
    rw [hds, parseIntQ.eq_def]
    split
    · next r heq => exact absurd (List.cons.inj heq).1 (digit_char_ne_minus hdig)
    · positivity

theorem constant_lookup_nonneg {name : String} {q : ℚ}
    (h : constant_lookup name = some q) : 0 ≤ q := by
  simp only [constant_lookup, Option.map_eq_some'] at h
  obtain ⟨p, hp, rfl⟩ := h
  have hmem := List.mem_of_find?_eq_some hp
  simp only [constant_table, List.mem_cons, List.mem_singleton] at hmem
  simp only [List.not_mem_nil, or_false] at hmem
  rcases hmem with h | h | h | h <;> rw [h] <;> simp only [math_E, math_PI] <;> positivity

theorem classify_sym_value_nonneg {name : String} {q : ℚ}
    (h : classify_sym name = .ok (.value (.num q))) : 0 ≤ q := by
  simp only [classify_sym] at h
  split at h
  · exact absurd h (by simp)
  · split at h
    · exact absurd h (by simp)
    · split at h
      · next c hc =>
          obtain rfl : c = q := by simpa using h
          exact constant_lookup_nonneg hc
      · exact absurd h (by simp)

theorem lex_step_value_nonneg {c : Char} {rest : List Char} {q : ℚ} {n : ℕ}
    (h : lex_step (c :: rest) = .emit (.value (.num q)) n) : 0 ≤ q := by
  simp only [lex_step] at h
  by_cases h1 : c = '+' ∨ c = '-'
  · rw [if_pos h1] at h; exact absurd h (by simp)
  rw [if_neg h1] at h
  have hcm : c ≠ '-' := fun hc => h1 (Or.inr hc)
  by_cases h2 : c = '*' ∨ c = '/'
  · rw [if_pos h2] at h; exact absurd h (by simp)
  rw [if_neg h2] at h
  by_cases h3 : c = '^'
  · rw [if_pos h3] at h; exact absurd h (by simp)
  rw [if_neg h3] at h
  by_cases h4 : c = ')'
  · rw [if_pos h4] at h; exact absurd h (by simp)
  rw [if_neg h4] at h
  by_cases h5 : c = '('
  · rw [if_pos h5] at h; exact absurd h (by simp)
  rw [if_neg h5] at h
  by_cases h6 : c = ' ' ∨ c = '\t' ∨ c = '\r' ∨ c = '\n'
  · rw [if_pos h6] at h; exact absurd h (by simp)
  rw [if_neg h6] at h
  split at h
  · next m hf =>
      obtain rfl : parseFloatQ m = q :=
        JVal.num.inj (Token.value.inj (StepRes.emit.inj h).1)
      exact match_float_nonneg hcm hf
  · split at h
    · next m hi =>
        obtain rfl : parseIntQ m = q :=
          JVal.num.inj (Token.value.inj (StepRes.emit.inj h).1)
        exact match_int_nonneg hcm hi
    · split at h
      · split at h
        · next t hcl =>
            obtain rfl : t = .value (.num q) := (StepRes.emit.inj h).1
            exact classify_sym_value_nonneg hcl
        · exact absurd h (by simp)
      · exact absurd h (by simp)

theorem lex_loop_value_nonneg :
    ∀ (fuel : ℕ) (cs : List Char) (ts : List Token), lex_loop fuel cs = .ok ts →
      ∀ q : ℚ, (Token.value (.num q)) ∈ ts → 0 ≤ q := by
  intro fuel
  induction fuel with
  | zero =>
      intro cs ts h q hm
      match cs, h with
      | [], h =>
          obtain rfl : ([] : List Token) = ts := by simpa [lex_loop] using h
          exact absurd hm (by simp)
  | succ fuel ih =>
      intro cs ts h q hm
      match cs with
      | [] =>
          obtain rfl : ([] : List Token) = ts := by simpa [lex_loop] using h
          exact absurd hm (by simp)
      | c :: rest =>
          rw [lex_loop] at h
          split at h
          · next t n hstep =>
              cases hrec : lex_loop fuel ((c :: rest).drop n) with
              | error e =>
                  rw [hrec] at h
                  exact absurd h (by simp [Except.map])
              | ok ts2 =>
                  rw [hrec] at h
                  obtain rfl : t :: ts2 = ts := by simpa [Except.map] using h
                  rcases List.mem_cons.mp hm with heq | hmem
                  · exact lex_step_value_nonneg (n := n) (by rw [hstep, ← heq])
                  · exact ih _ _ hrec q hmem
          · next n hstep => exact ih _ _ h q hm
          · next msg hstep => exact absurd h (by simp)

/-- C10 (confirmed): although reg_int and reg_float each allow an optional
leading minus sign, a minus character is always consumed first by the
single-character switch, so every literal-value token the tokenizer emits
carries a nonnegative value (the symbol path can also emit literal tokens,
for the constants, and those values are positive), and an input such as
"-2" is tokenized as the unary-capable minus operator followed by the
literal 2. -/
theorem C10_literal_tokens_nonneg :
    (∀ (input : List Char) (ts : List Token), lex_scan input = .ok ts →
        ∀ q : ℚ, (Token.value (.num q)) ∈ ts → 0 ≤ q) ∧
    lex_scan "-2".data = .ok [.op "-" 50 0 1, .value (.num 2)] :=
  ⟨fun input ts h q hm => lex_loop_value_nonneg input.length input ts h q hm, rfl⟩

/-- Witness for C10: the literal token for the input "5". -/
theorem C10_witness :
    lex_scan "5".data = .ok [.value (.num 5)] ∧ (0 : ℚ) ≤ 5 :=
  ⟨rfl, C10_literal_tokens_nonneg.1 "5".data [.value (.num 5)] rfl 5 (by simp)⟩

/-- Witness for C9 on a concrete literal tree. -/
theorem C9_witness :
    JVal.num 3 = JVal.num 3 ∧
    create_evaluator Fzero (.value (.num 3)) (.num 0) (.num 0) = .ok (.num 3) :=
  ⟨(C9_evaluation_deterministic Fzero (.num 0) (.num 0) (.value (.num 3))).1
      (.num 3) (.num 3) (.value (.num 3)) (.value (.num 3)),
   ((C9_evaluation_deterministic Fzero (.num 0) (.num 0) (.value (.num 3))).2
      (.num 3)).mp (.value (.num 3))⟩

end GraphyCalculator
